import Mathlib

/-!
Verification of the radical / semisimple decomposition engine of
`sage.categories.finite_dimensional_algebras_with_basis`.

The Python source is category-level code: an algebra is any ring object
with a distinguished finite basis, and the methods only use the ring
operations, the retraction/lift maps to the semisimple quotient, and a
linear-algebra backend (matrix kernels, characteristic polynomials,
root extraction, linear solving), which the specification describes as
external collaborators.  Accordingly:

* the purely ring-theoretic methods (`idempotent_lift`,
  `orthogonal_idempotents_central_mod_radical`,
  `is_identity_decomposition_into_orthogonal_idempotents`) are embedded
  over an arbitrary ring `A` with decidable equality, with the
  retraction to the semisimple quotient and the lift/section given as
  maps to a second ring `Q`;
* the basis-level methods (`radical_basis`, `__invert__`,
  `peirce_summand`, `principal_ideal`, `cartan_invariants_matrix`) are
  embedded over explicit coordinate data, with the external
  linear-algebra backend passed in as an oracle structure;
* raises are modelled by `Except`, and the unbounded `while` loops of
  the source by fuelled recursion whose `none` result means that the
  loop is still running.
-/

namespace FDAlgebra

/-! ## `is_identity_decomposition_into_orthogonal_idempotents`

Source (`finite_dimensional_algebras_with_basis.py`, lines 1012-1015):

    return (self.sum(l) == self.one()
            and all(e*e == e for e in l)
            and all(e*f == 0 and f*e == 0 for i, e in enumerate(l)
                                          for f in l[:i]))
-/

section IdentityDecomposition

variable {A : Type} [Ring A] [DecidableEq A]

/-- Embedding of the predicate
`is_identity_decomposition_into_orthogonal_idempotents`: the sum of the
list is the unit, every element squares to itself, and every element is
orthogonal (in both orders) to the elements preceding it in the list. -/
def is_identity_decomposition_into_orthogonal_idempotents (l : List A) : Bool :=
  decide (l.sum = 1)
  && l.all (fun e => decide (e * e = e))
  && (List.range l.length).all (fun i =>
       (l.take i).all (fun f =>
         decide (l.getD i 0 * f = 0) && decide (f * l.getD i 0 = 0)))

theorem is_id_decomp_iff_get (l : List A) :
    is_identity_decomposition_into_orthogonal_idempotents l = true ↔
      (l.sum = 1 ∧ (∀ e ∈ l, e * e = e) ∧
        ∀ i j : Fin l.length, i ≠ j → l.get i * l.get j = 0) := by
  unfold is_identity_decomposition_into_orthogonal_idempotents
  simp only [Bool.and_eq_true, List.all_eq_true, decide_eq_true_eq, List.mem_range]
  constructor
  · rintro ⟨⟨hsum, hidem⟩, horth⟩
    refine ⟨hsum, hidem, ?_⟩
    intro i j hne
    rcases lt_or_gt_of_ne (fun h => hne (Fin.ext h)) with hlt | hgt
    · -- i.val < j.val : `l.get i` occurs in `l.take j`
      have hmem : l.get i ∈ l.take j.val := by
        rw [List.mem_take_iff_getElem]
        exact ⟨i.val, by omega, by simp⟩
      have := (horth j.val j.isLt) (l.get i) hmem
      have hD : l.getD j.val 0 = l.get j := List.getD_eq_getElem l 0 j.isLt
      rw [hD] at this
      exact this.2
    · -- j.val < i.val : `l.get j` occurs in `l.take i`
      have hmem : l.get j ∈ l.take i.val := by
        rw [List.mem_take_iff_getElem]
        exact ⟨j.val, by omega, by simp⟩
      have := (horth i.val i.isLt) (l.get j) hmem
      have hD : l.getD i.val 0 = l.get i := List.getD_eq_getElem l 0 i.isLt
      rw [hD] at this
      exact this.1
  · rintro ⟨hsum, hidem, horth⟩
    refine ⟨⟨hsum, hidem⟩, ?_⟩
    intro i hi f hf
    have hD : l.getD i 0 = l.get ⟨i, hi⟩ := List.getD_eq_getElem l 0 hi
    rw [List.mem_take_iff_getElem] at hf
    obtain ⟨j, hj, rfl⟩ := hf
    have hjl : j < l.length := lt_of_lt_of_le hj (min_le_right i l.length)
    have hji : j < i := lt_of_lt_of_le hj (min_le_left _ _)
    have h1 := horth ⟨i, hi⟩ ⟨j, hjl⟩ (by simp [Fin.ext_iff]; omega)
    have h2 := horth ⟨j, hjl⟩ ⟨i, hi⟩ (by simp [Fin.ext_iff]; omega)
    rw [hD]
    constructor
    · simpa using h1
    · simpa using h2

theorem is_id_decomp_iff_pairwise (l : List A) :
    is_identity_decomposition_into_orthogonal_idempotents l = true ↔
      (l.sum = 1 ∧ (∀ e ∈ l, e * e = e) ∧
        l.Pairwise (fun a b => a * b = 0 ∧ b * a = 0)) := by
  rw [is_id_decomp_iff_get]
  refine and_congr_right fun _ => and_congr_right fun _ => ?_
  rw [List.pairwise_iff_get]
  constructor
  · intro h i j hij
    exact ⟨h i j (by simp [Fin.ext_iff]; omega),
           h j i (by simp [Fin.ext_iff]; omega)⟩
  · intro h i j hij
    rcases lt_or_gt_of_ne (fun hh => hij (Fin.ext hh)) with hlt | hgt
    · exact (h i j hlt).1
    · exact (h j i hgt).2

/-- C2: `is_identity_decomposition_into_orthogonal_idempotents l` is true
iff the sum of `l` is the algebra unit, every element of `l` squares to
itself, and every pair of elements at distinct positions multiplies to
zero in both orders.  (The embedding is a pure function, so the absence
of side effects is inherent in the model.) -/
theorem is_identity_decomposition_into_orthogonal_idempotents_iff (l : List A) :
    is_identity_decomposition_into_orthogonal_idempotents l = true ↔
      (l.sum = 1 ∧ (∀ e ∈ l, e * e = e) ∧
        ∀ i j : Fin l.length, i ≠ j →
          l.get i * l.get j = 0 ∧ l.get j * l.get i = 0) := by
  rw [is_id_decomp_iff_get]
  refine and_congr_right fun _ => and_congr_right fun _ => ?_
  constructor
  · intro h i j hij
    exact ⟨h i j hij, h j i (Ne.symm hij)⟩
  · intro h i j hij
    exact (h i j hij).1

/-- C10: on the empty list the predicate decides whether `0 = 1`, and
inserting the zero element anywhere in a list never changes the
predicate's value. -/
theorem is_identity_decomposition_empty_and_zero :
    (is_identity_decomposition_into_orthogonal_idempotents ([] : List A) = true
        ↔ (0 : A) = 1)
    ∧ ((0 : A) ≠ 1 →
        is_identity_decomposition_into_orthogonal_idempotents ([] : List A) = false)
    ∧ ∀ l₁ l₂ : List A,
        is_identity_decomposition_into_orthogonal_idempotents (l₁ ++ 0 :: l₂) =
          is_identity_decomposition_into_orthogonal_idempotents (l₁ ++ l₂) := by
  have hempty : is_identity_decomposition_into_orthogonal_idempotents ([] : List A) = true
      ↔ (0 : A) = 1 := by
    rw [is_id_decomp_iff_pairwise]
    simp
  refine ⟨hempty, ?_, ?_⟩
  · intro h01
    exact Bool.eq_false_iff.mpr (fun h => h01 (hempty.mp h))
  · intro l₁ l₂
    have hiff : is_identity_decomposition_into_orthogonal_idempotents (l₁ ++ 0 :: l₂) = true
        ↔ is_identity_decomposition_into_orthogonal_idempotents (l₁ ++ l₂) = true := by
      rw [is_id_decomp_iff_pairwise, is_id_decomp_iff_pairwise]
      have hsum : (l₁ ++ 0 :: l₂).sum = (l₁ ++ l₂).sum := by
        simp
      have hmem : (∀ e ∈ l₁ ++ 0 :: l₂, e * e = e) ↔ (∀ e ∈ l₁ ++ l₂, e * e = e) := by
        constructor
        · intro h e he
          apply h
          simp only [List.mem_append, List.mem_cons] at he ⊢
          tauto
        · intro h e he
          simp only [List.mem_append, List.mem_cons] at he
          rcases he with h1 | h0 | h2
          · exact h e (by simp [h1])
          · subst h0; simp
          · exact h e (by simp [h2])
      have hpw : (l₁ ++ 0 :: l₂).Pairwise (fun a b => a * b = 0 ∧ b * a = 0)
          ↔ (l₁ ++ l₂).Pairwise (fun a b => a * b = 0 ∧ b * a = 0) := by
        rw [List.pairwise_append, List.pairwise_append, List.pairwise_cons]
        constructor
        · rintro ⟨h1, ⟨h0, h2⟩, h12⟩
          refine ⟨h1, h2, ?_⟩
          intro a ha b hb
          exact h12 a ha b (by simp [hb])
        · rintro ⟨h1, h2, h12⟩
          refine ⟨h1, ⟨?_, h2⟩, ?_⟩
          · intro b hb
            simp
          · intro a ha b hb
            rcases List.mem_cons.mp hb with rfl | hb'
            · simp
            · exact h12 a ha b hb'
      rw [hsum, hmem, hpw]
    have hbool : ∀ a b : Bool, (a = true ↔ b = true) → a = b := by decide
    exact hbool _ _ hiff

/-- Witness for C10 at a concrete algebra: over `ℤ` the empty list is
rejected, and inserting `0` into `[1]` does not change the verdict. -/
theorem is_identity_decomposition_empty_and_zero_witness :
    is_identity_decomposition_into_orthogonal_idempotents ([] : List ℤ) = false
    ∧ is_identity_decomposition_into_orthogonal_idempotents ([(1 : ℤ), 0]) =
        is_identity_decomposition_into_orthogonal_idempotents [(1 : ℤ)] :=
  ⟨is_identity_decomposition_empty_and_zero.2.1 (by decide),
   is_identity_decomposition_empty_and_zero.2.2 [(1 : ℤ)] []⟩

end IdentityDecomposition

/-! ## `idempotent_lift`

Source (lines 569-580):

    if not self.is_parent_of(x):
        x = x.lift()
    p = self.semisimple_quotient().retract(x)
    if p * p != p:
        raise ValueError("%s does not retract to an idempotent."%p)
    x_prev = None
    one = self.one()
    while x != x_prev:
        tmp = x
        x = (one - (one - x**2)**2)
        x_prev = tmp
    return x

The initial coercion (accepting an element of the quotient and replacing
it by a lift) is an input-normalisation convenience; the embedding takes
the ambient element `x` directly.  The `while` loop is fuelled: `none`
means the loop is still running after `fuel` iterations.  A raise is an
`Except.error` carrying the formatted message, with `name` standing for
the string conversion `"%s" % p`.
-/

section IdempotentLift

variable {A Q : Type} [Ring A] [Ring Q] [DecidableEq A] [DecidableEq Q]

/-- The refinement loop of `idempotent_lift`: repeatedly replace `x` by
`1 - (1 - x^2)^2` until the value no longer changes. -/
def idempotentLiftLoop : ℕ → A → Option A
  | 0, _ => none
  | fuel + 1, x =>
    let y := 1 - (1 - x ^ 2) ^ 2
    if y = x then some y else idempotentLiftLoop fuel y

/-- Embedding of `idempotent_lift`.  The outer `Except` is the raise of
the precondition check; the inner `Option` is the fuelled loop. -/
def idempotent_lift (name : Q → String) (retract : A → Q) (fuel : ℕ) (x : A) :
    Except String (Option A) :=
  let p := retract x
  if p * p ≠ p then
    Except.error (name p ++ " does not retract to an idempotent.")
  else
    Except.ok (idempotentLiftLoop fuel x)

theorem idempotentLiftLoop_fixed {fuel : ℕ} {x e : A}
    (h : idempotentLiftLoop fuel x = some e) : 1 - (1 - e ^ 2) ^ 2 = e := by
  induction fuel generalizing x with
  | zero => simp [idempotentLiftLoop] at h
  | succ n ih =>
    rw [idempotentLiftLoop] at h
    by_cases hx : 1 - (1 - x ^ 2) ^ 2 = x
    · simp only [hx, eq_self_iff_true, if_true, Option.some.injEq] at h
      subst h; exact hx
    · simp only [if_neg hx] at h
      exact ih h

omit [DecidableEq Q] in
theorem idempotentLiftLoop_retract (π : A →+* Q) {fuel : ℕ} {x e : A}
    (hp : π x * π x = π x)
    (h : idempotentLiftLoop fuel x = some e) : π e = π x := by
  induction fuel generalizing x with
  | zero => simp [idempotentLiftLoop] at h
  | succ n ih =>
    rw [idempotentLiftLoop] at h
    have hstep : π (1 - (1 - x ^ 2) ^ 2) = π x := by
      have hmap : π (1 - (1 - x ^ 2) ^ 2) = 1 - (1 - π x ^ 2) ^ 2 := by
        simp [map_sub, map_one, map_pow]
      have hsq : π x ^ 2 = π x := by rw [sq]; exact hp
      have hexp : (1 - π x) * (1 - π x) = 1 - π x - π x + π x * π x := by
        noncomm_ring
      rw [hmap, hsq, sq, hexp, hp]
      abel
    by_cases hx : 1 - (1 - x ^ 2) ^ 2 = x
    · simp only [hx, eq_self_iff_true, if_true, Option.some.injEq] at h
      subst h; rfl
    · simp only [if_neg hx] at h
      have hp' : π (1 - (1 - x ^ 2) ^ 2) * π (1 - (1 - x ^ 2) ^ 2) =
          π (1 - (1 - x ^ 2) ^ 2) := by rw [hstep]; exact hp
      rw [ih hp' h, hstep]

omit [DecidableEq A] in
/-- A fixed point of the refinement map whose idempotency defect is
nilpotent is an idempotent. -/
theorem fixed_point_idempotent {e : A} (hfix : 1 - (1 - e ^ 2) ^ 2 = e)
    (hnil : IsNilpotent (e - e * e)) : e * e = e := by
  set u := e - e * e with hu
  have hkey : u * (e * e + e - 1) = 1 - (1 - e ^ 2) ^ 2 - e := by
    rw [hu]; noncomm_ring
  rw [hfix, sub_self] at hkey
  -- (2e - 1) * (2e - 1) = 1 - 4u, a unit since u is nilpotent
  have hsq : (2 * e - 1) * (2 * e - 1) = 1 - u * (4 : A) := by
    rw [hu]; noncomm_ring
  have hnil4 : IsNilpotent (u * (4 : A)) :=
    (Commute.ofNat_right u 4).isNilpotent_mul_left hnil
  have hunit1 : IsUnit (1 - u * (4 : A)) := hnil4.isUnit_one_sub
  obtain ⟨v, hv⟩ := hunit1
  have hvsq : ((v : A)) = (2 * e - 1) * (2 * e - 1) := by rw [hv, hsq]
  have hcomm_av : Commute (2 * e - 1) ((v : A)) := by
    rw [hvsq]; exact (Commute.refl _).mul_right (Commute.refl _)
  have hcomm_avinv : Commute (2 * e - 1) (((v⁻¹ : Aˣ) : A)) :=
    hcomm_av.units_inv_right
  have ha : IsUnit (2 * e - 1) := by
    refine ⟨⟨2 * e - 1, (2 * e - 1) * ((v⁻¹ : Aˣ) : A), ?_, ?_⟩, rfl⟩
    · rw [← mul_assoc, ← hvsq, Units.mul_inv]
    · rw [hcomm_avinv.eq, mul_assoc, ← hvsq, Units.inv_mul]
  have hcomm_ue : Commute u e :=
    Commute.sub_left (Commute.refl e) ((Commute.refl e).mul_left (Commute.refl e))
  have hcomm_nua : Commute (-u) (2 * e - 1) :=
    (Commute.sub_right ((Commute.ofNat_right u 2).mul_right hcomm_ue)
      (Commute.one_right u)).neg_left
  have hw_eq : e * e + e - 1 = (2 * e - 1) + -u := by rw [hu]; noncomm_ring
  have hunit_w : IsUnit (e * e + e - 1) := by
    rw [hw_eq]
    exact (hnil.neg).isUnit_add_left_of_commute ha hcomm_nua
  obtain ⟨w, hw⟩ := hunit_w
  have hu0 : u = 0 := by
    have h0 : u * (w : A) = 0 := by rw [hw]; exact hkey
    calc u = u * ((w : A) * ((w⁻¹ : Aˣ) : A)) := by rw [Units.mul_inv, mul_one]
    _ = u * (w : A) * ((w⁻¹ : Aˣ) : A) := by rw [mul_assoc]
    _ = 0 := by rw [h0, zero_mul]
  have : e - e * e = 0 := by rw [← hu, hu0]
  exact (sub_eq_zero.mp this).symm

/-- C4: when the computation succeeds (`Except.ok (some e)`), the output
`e` of `idempotent_lift x` is a fixed point of the refinement map
`x ↦ 1 - (1 - x^2)^2`, is an idempotent of the algebra, and has the same
image as `x` under the retraction to the semisimple quotient.  The
retraction is a ring homomorphism whose kernel (the radical) consists of
nilpotent elements, as in the source's finite-dimensional setting. -/
theorem idempotent_lift_spec (name : Q → String) (π : A →+* Q) (fuel : ℕ) (x e : A)
    (hker : ∀ a : A, π a = 0 → IsNilpotent a)
    (hp : π x * π x = π x)
    (hres : idempotent_lift name (⇑π) fuel x = Except.ok (some e)) :
    (1 - (1 - e ^ 2) ^ 2 = e) ∧ e * e = e ∧ π e = π x := by
  unfold idempotent_lift at hres
  rw [if_neg (not_not_intro hp)] at hres
  have hloop : idempotentLiftLoop fuel x = some e := by
    simpa using hres
  have hfix := idempotentLiftLoop_fixed hloop
  have hret := idempotentLiftLoop_retract π hp hloop
  have hnil : IsNilpotent (e - e * e) := by
    apply hker
    rw [map_sub, map_mul, hret, hp, sub_self]
  exact ⟨hfix, fixed_point_idempotent hfix hnil, hret⟩

/-- Witness for C4 at `A = Q = ℤ`, `π = id`, `x = 1`. -/
theorem idempotent_lift_spec_witness :
    (1 - (1 - (1 : ℤ) ^ 2) ^ 2 = 1) ∧ (1 : ℤ) * 1 = 1 ∧
      (RingHom.id ℤ) 1 = (RingHom.id ℤ) 1 :=
  idempotent_lift_spec (fun _ => "") (RingHom.id ℤ) 1 1 1
    (fun a ha => ⟨1, by simpa using ha⟩) (by norm_num) (by rfl)

/-- C5: `idempotent_lift` raises exactly when the retraction `p` of `x`
is not idempotent; the raised message names `p` and says
"does not retract to an idempotent."; and on a raise the refinement loop
is never entered — the result does not depend on the fuel available to
the loop.  (The embedding is pure, so the algebra state is untouched.) -/
theorem idempotent_lift_error_iff (name : Q → String) (retract : A → Q)
    (fuel : ℕ) (x : A) :
    ((∃ msg, idempotent_lift name retract fuel x = Except.error msg) ↔
        retract x * retract x ≠ retract x)
    ∧ (∀ msg, idempotent_lift name retract fuel x = Except.error msg →
        msg = name (retract x) ++ " does not retract to an idempotent.")
    ∧ (retract x * retract x ≠ retract x → ∀ fuel' : ℕ,
        idempotent_lift name retract fuel x = idempotent_lift name retract fuel' x) := by
  by_cases h : retract x * retract x ≠ retract x
  · refine ⟨⟨fun _ => h, fun _ => ?_⟩, ?_, ?_⟩
    · exact ⟨_, by unfold idempotent_lift; rw [if_pos h]⟩
    · intro msg hmsg
      unfold idempotent_lift at hmsg
      rw [if_pos h] at hmsg
      exact (Except.error.injEq _ _ ▸ hmsg.symm :)
    · intro _ fuel'
      unfold idempotent_lift
      rw [if_pos h, if_pos h]
  · refine ⟨⟨fun ⟨msg, hmsg⟩ => ?_, fun hc => absurd hc h⟩, ?_, fun hc => absurd hc h⟩
    · unfold idempotent_lift at hmsg
      rw [if_neg h] at hmsg
      exact absurd hmsg (by simp)
    · intro msg hmsg
      unfold idempotent_lift at hmsg
      rw [if_neg h] at hmsg
      exact absurd hmsg (by simp)

/-- Witness for C5 at `A = Q = ℤ`, `retract = id`, `x = 2`: the
retraction is not idempotent, and the call raises. -/
theorem idempotent_lift_error_iff_witness :
    (2 : ℤ) * 2 ≠ 2 ∧
      ∃ msg, idempotent_lift (fun _ => "p") (fun a : ℤ => a) 5 (2 : ℤ) =
        Except.error msg :=
  ⟨by decide,
   (idempotent_lift_error_iff (fun _ => "p") (fun a : ℤ => a) 5 2).1.mpr (by decide)⟩

/-- The refinement loop leaves orthogonality to a fixed element `f`
invariant: if `f * x = 0` and `x * f = 0` then the same holds for the
limit returned by the loop.  (Each iterate is a polynomial in `x` with
zero constant term.) -/
theorem idempotentLiftLoop_orth {f : A} {fuel : ℕ} {x e : A}
    (hfx : f * x = 0) (hxf : x * f = 0)
    (h : idempotentLiftLoop fuel x = some e) : f * e = 0 ∧ e * f = 0 := by
  induction fuel generalizing x with
  | zero => simp [idempotentLiftLoop] at h
  | succ n ih =>
    rw [idempotentLiftLoop] at h
    have hfy : f * (1 - (1 - x ^ 2) ^ 2) = 0 := by
      have hid : f * (1 - (1 - x ^ 2) ^ 2) =
          2 * ((f * x) * x) - ((f * x) * x) * (x * x) := by noncomm_ring
      rw [hid, hfx]
      simp
    have hyf : (1 - (1 - x ^ 2) ^ 2) * f = 0 := by
      have hid : (1 - (1 - x ^ 2) ^ 2) * f =
          2 * (x * (x * f)) - (x * x) * (x * (x * f)) := by noncomm_ring
      rw [hid, hxf]
      simp
    by_cases hx : 1 - (1 - x ^ 2) ^ 2 = x
    · simp only [hx, eq_self_iff_true, if_true, Option.some.injEq] at h
      subst h; exact ⟨by rw [← hx] at hfx ⊢; exact hfx, by rw [← hx] at hxf ⊢; exact hxf⟩
    · simp only [if_neg hx] at h
      exact ih hfy hyf h

end IdempotentLift

/-! ## `orthogonal_idempotents_central_mod_radical`

Source (lines 518-526):

    one = self.one()
    # Construction of the orthogonal idempotents
    idempotents = []
    f = self.zero()
    for g in self.semisimple_quotient().central_orthogonal_idempotents():
        fi = self.idempotent_lift((one - f) * g.lift() * (one - f))
        idempotents.append(fi)
        f = f + fi
    return tuple(idempotents)

The central orthogonal idempotents of the semisimple quotient are an
external collaborator capability; they enter the embedding as the list
`cois` together with the hypotheses the collaborator guarantees
(idempotent, pairwise orthogonal, summing to one).  `none` means one of
the `idempotent_lift` calls raised or ran out of fuel.
-/

section OrthogonalIdempotents

variable {A Q : Type} [Ring A] [Ring Q] [DecidableEq A] [DecidableEq Q]

/-- The accumulation loop of `orthogonal_idempotents_central_mod_radical`:
`f` is the running sum of the idempotents constructed so far. -/
def oicmrLoop (name : Q → String) (retract : A → Q) (lift : Q → A) (fuel : ℕ) :
    A → List Q → Option (List A)
  | _, [] => some []
  | f, g :: gs =>
    match idempotent_lift name retract fuel ((1 - f) * lift g * (1 - f)) with
    | Except.ok (some fi) =>
        (oicmrLoop name retract lift fuel (f + fi) gs).map (fun l => fi :: l)
    | _ => none

/-- Embedding of `orthogonal_idempotents_central_mod_radical`. -/
def orthogonal_idempotents_central_mod_radical (name : Q → String)
    (retract : A → Q) (lift : Q → A) (fuel : ℕ) (cois : List Q) : Option (List A) :=
  oicmrLoop name retract lift fuel 0 cois

omit [DecidableEq A] in
/-- An idempotent that is also nilpotent is zero. -/
theorem idem_isNilpotent_eq_zero {a : A} (hidem : a * a = a)
    (hnil : IsNilpotent a) : a = 0 := by
  obtain ⟨n, hn⟩ := hnil
  cases n with
  | zero =>
    have h1 : (1 : A) = 0 := by simpa using hn
    calc a = a * 1 := (mul_one a).symm
    _ = a * 0 := by rw [h1]
    _ = 0 := mul_zero a
  | succ m =>
    rw [IsIdempotentElem.pow_succ_eq m hidem] at hn
    exact hn

/-- Invariant of the accumulation loop: starting from an idempotent `f`
whose retraction is orthogonal to all remaining quotient idempotents,
the loop produces pairwise-orthogonal idempotents that are orthogonal to
`f`, whose sum together with `f` is idempotent and retracts onto
`π f + gs.sum`. -/
theorem oicmrLoop_spec (name : Q → String) (π : A →+* Q) (lift : Q → A) (fuel : ℕ)
    (hker : ∀ a : A, π a = 0 → IsNilpotent a) :
    ∀ (gs : List Q) (f : A) (l : List A),
      oicmrLoop name (⇑π) lift fuel f gs = some l →
      (∀ g ∈ gs, π (lift g) = g) →
      (∀ g ∈ gs, g * g = g) →
      gs.Pairwise (fun a b => a * b = 0 ∧ b * a = 0) →
      f * f = f →
      (∀ g ∈ gs, π f * g = 0 ∧ g * π f = 0) →
      (∀ e ∈ l, e * e = e)
      ∧ l.Pairwise (fun a b => a * b = 0 ∧ b * a = 0)
      ∧ (∀ e ∈ l, f * e = 0 ∧ e * f = 0)
      ∧ (f + l.sum) * (f + l.sum) = f + l.sum
      ∧ π (f + l.sum) = π f + gs.sum
      ∧ l.length = gs.length := by
  intro gs
  induction gs with
  | nil =>
    intro f l hres _ _ _ hf _
    rw [oicmrLoop] at hres
    obtain rfl : ([] : List A) = l := by simpa using hres
    refine ⟨by simp, by simp, by simp, ?_, by simp, by simp⟩
    simpa using hf
  | cons g gs ih =>
    intro f l hres hlift hidem horth hf horthf
    have hg_mem : g ∈ g :: gs := List.mem_cons_self g gs
    have hπx : π ((1 - f) * lift g * (1 - f)) = g := by
      rw [map_mul, map_mul, map_sub, map_one, hlift g hg_mem]
      have h2 := (horthf g hg_mem).1
      have h3 := (horthf g hg_mem).2
      calc (1 - π f) * g * (1 - π f)
          = (g - π f * g) * (1 - π f) := by noncomm_ring
      _ = (g - 0) * (1 - π f) := by rw [h2]
      _ = g - g * π f := by noncomm_ring
      _ = g - 0 := by rw [h3]
      _ = g := sub_zero g
    have hpre : π ((1 - f) * lift g * (1 - f)) * π ((1 - f) * lift g * (1 - f)) =
        π ((1 - f) * lift g * (1 - f)) := by
      rw [hπx]; exact hidem g hg_mem
    have hlift_eq : idempotent_lift name (⇑π) fuel ((1 - f) * lift g * (1 - f)) =
        Except.ok (idempotentLiftLoop fuel ((1 - f) * lift g * (1 - f))) := by
      unfold idempotent_lift
      rw [if_neg (not_not_intro hpre)]
    rw [oicmrLoop, hlift_eq] at hres
    rcases hloop : idempotentLiftLoop fuel ((1 - f) * lift g * (1 - f)) with _ | fi
    · rw [hloop] at hres
      exact absurd hres (by simp)
    · rw [hloop] at hres
      simp only [Option.map_eq_some'] at hres
      obtain ⟨l', hl', rfl⟩ := hres
      -- facts about the lifted idempotent fi
      have hfix := idempotentLiftLoop_fixed hloop
      have hπfi : π fi = g := by
        rw [idempotentLiftLoop_retract π hpre hloop, hπx]
      have hfi_idem : fi * fi = fi := by
        refine fixed_point_idempotent hfix (hker _ ?_)
        rw [map_sub, map_mul, hπfi, hidem g hg_mem, sub_self]
      have hfx : f * ((1 - f) * lift g * (1 - f)) = 0 := by
        calc f * ((1 - f) * lift g * (1 - f))
            = (f - f * f) * (lift g * (1 - f)) := by noncomm_ring
        _ = (f - f) * (lift g * (1 - f)) := by rw [hf]
        _ = 0 := by rw [sub_self, zero_mul]
      have hxf : (1 - f) * lift g * (1 - f) * f = 0 := by
        calc (1 - f) * lift g * (1 - f) * f
            = (1 - f) * lift g * (f - f * f) := by noncomm_ring
        _ = (1 - f) * lift g * (f - f) := by rw [hf]
        _ = 0 := by rw [sub_self, mul_zero]
      have hffi : f * fi = 0 ∧ fi * f = 0 := idempotentLiftLoop_orth hfx hxf hloop
      -- the updated accumulator f + fi
      have hf' : (f + fi) * (f + fi) = f + fi := by
        have : (f + fi) * (f + fi) = f * f + f * fi + fi * f + fi * fi := by noncomm_ring
        rw [this, hf, hffi.1, hffi.2, hfi_idem]
        abel
      have horthf' : ∀ g' ∈ gs, π (f + fi) * g' = 0 ∧ g' * π (f + fi) = 0 := by
        intro g' hg'
        have hgg' := (List.pairwise_cons.mp horth).1 g' hg'
        have h1 := (horthf g' (List.mem_cons_of_mem g hg')).1
        have h2 := (horthf g' (List.mem_cons_of_mem g hg')).2
        constructor
        · rw [map_add, hπfi, add_mul, h1, hgg'.1, add_zero]
        · rw [map_add, hπfi, mul_add, h2, hgg'.2, add_zero]
      have ihres := ih (f + fi) l' hl'
        (fun g' hg' => hlift g' (List.mem_cons_of_mem g hg'))
        (fun g' hg' => hidem g' (List.mem_cons_of_mem g hg'))
        (List.pairwise_cons.mp horth).2 hf' horthf'
      obtain ⟨ih_idem, ih_pw, ih_orthf', ih_sum_idem, ih_π, ih_len⟩ := ihres
      -- fi is orthogonal to every element of l'
      have hfi_f' : fi * (f + fi) = fi := by
        rw [mul_add, hffi.2, hfi_idem, zero_add]
      have hf'_fi : (f + fi) * fi = fi := by
        rw [add_mul, hffi.1, hfi_idem, zero_add]
      have hfi_orth : ∀ e ∈ l', fi * e = 0 ∧ e * fi = 0 := by
        intro e he
        constructor
        · calc fi * e = (fi * (f + fi)) * e := by rw [hfi_f']
          _ = fi * ((f + fi) * e) := by rw [mul_assoc]
          _ = fi * 0 := by rw [(ih_orthf' e he).1]
          _ = 0 := mul_zero fi
        · calc e * fi = e * ((f + fi) * fi) := by rw [hf'_fi]
          _ = (e * (f + fi)) * fi := by rw [← mul_assoc]
          _ = 0 * fi := by rw [(ih_orthf' e he).2]
          _ = 0 := zero_mul fi
      have hassoc : f + (fi :: l').sum = (f + fi) + l'.sum := by
        rw [List.sum_cons, add_assoc]
      refine ⟨?_, ?_, ?_, ?_, ?_, ?_⟩
      · intro e he
        rcases List.mem_cons.mp he with rfl | he'
        · exact hfi_idem
        · exact ih_idem e he'
      · exact List.pairwise_cons.mpr ⟨hfi_orth, ih_pw⟩
      · intro e he
        rcases List.mem_cons.mp he with rfl | he'
        · exact hffi
        · have hffp : f * (f + fi) = f := by rw [mul_add, hf, hffi.1, add_zero]
          have hfpf : (f + fi) * f = f := by rw [add_mul, hf, hffi.2, add_zero]
          constructor
          · calc f * e = (f * (f + fi)) * e := by rw [hffp]
            _ = f * ((f + fi) * e) := by rw [mul_assoc]
            _ = f * 0 := by rw [(ih_orthf' e he').1]
            _ = 0 := mul_zero f
          · calc e * f = e * ((f + fi) * f) := by rw [hfpf]
            _ = (e * (f + fi)) * f := by rw [← mul_assoc]
            _ = 0 * f := by rw [(ih_orthf' e he').2]
            _ = 0 := zero_mul f
      · rw [hassoc]
        exact ih_sum_idem
      · rw [hassoc, ih_π, map_add, hπfi, List.sum_cons, add_assoc]
      · simp [ih_len]

/-- Shared consequence of the loop invariant: a successful run on
collaborator data satisfying the quotient guarantees yields a list that
sums to one, consists of idempotents, and is pairwise orthogonal. -/
theorem orthogonal_idempotents_output_props
    (name : Q → String) (π : A →+* Q) (lift : Q → A) (fuel : ℕ)
    (cois : List Q) (l : List A)
    (hker : ∀ a : A, π a = 0 → IsNilpotent a)
    (hlift : ∀ g ∈ cois, π (lift g) = g)
    (hidem : ∀ g ∈ cois, g * g = g)
    (horth : cois.Pairwise (fun a b => a * b = 0 ∧ b * a = 0))
    (hsum : cois.sum = 1)
    (hres : orthogonal_idempotents_central_mod_radical name (⇑π) lift fuel cois = some l) :
    l.sum = 1
    ∧ (∀ e ∈ l, e * e = e)
    ∧ l.Pairwise (fun a b => a * b = 0 ∧ b * a = 0) := by
  have hspec := oicmrLoop_spec name π lift fuel hker cois 0 l hres
    hlift hidem horth (by rw [mul_zero]) (by simp)
  obtain ⟨h_idem, h_pw, _, h_sum_idem, h_π, _⟩ := hspec
  rw [zero_add] at h_sum_idem
  rw [zero_add, map_zero, zero_add, hsum] at h_π
  -- 1 - l.sum is an idempotent in the kernel, hence zero
  have h1t_idem : (1 - l.sum) * (1 - l.sum) = 1 - l.sum := by
    have hexp : (1 - l.sum) * (1 - l.sum) =
        1 - l.sum - l.sum + l.sum * l.sum := by noncomm_ring
    rw [hexp, h_sum_idem]
    abel
  have h1t_nil : IsNilpotent ((1 : A) - l.sum) := by
    apply hker
    rw [map_sub, map_one, h_π, sub_self]
  have hsum1 : l.sum = 1 := by
    have h0 := idem_isNilpotent_eq_zero h1t_idem h1t_nil
    have := sub_eq_zero.mp h0
    exact this.symm
  exact ⟨hsum1, h_idem, h_pw⟩

/-- C1: whenever `orthogonal_idempotents_central_mod_radical` succeeds,
its output is a decomposition of the identity into orthogonal
idempotents: the list sums to the unit, every element is idempotent, and
distinct elements multiply to zero in both orders.  The hypotheses are
the guarantees of the collaborators: the retraction is a ring
homomorphism whose kernel consists of nilpotent elements (the radical of
a finite-dimensional algebra), `lift` is a section on the given central
orthogonal idempotents of the semisimple quotient, and those are
idempotent, pairwise orthogonal, and sum to one. -/
theorem orthogonal_idempotents_central_mod_radical_spec
    (name : Q → String) (π : A →+* Q) (lift : Q → A) (fuel : ℕ)
    (cois : List Q) (l : List A)
    (hker : ∀ a : A, π a = 0 → IsNilpotent a)
    (hlift : ∀ g ∈ cois, π (lift g) = g)
    (hidem : ∀ g ∈ cois, g * g = g)
    (horth : cois.Pairwise (fun a b => a * b = 0 ∧ b * a = 0))
    (hsum : cois.sum = 1)
    (hres : orthogonal_idempotents_central_mod_radical name (⇑π) lift fuel cois = some l) :
    l.sum = 1
    ∧ (∀ e ∈ l, e * e = e)
    ∧ (∀ e ∈ l, ∀ f ∈ l, e ≠ f → e * f = 0 ∧ f * e = 0)
    ∧ is_identity_decomposition_into_orthogonal_idempotents l = true := by
  obtain ⟨hsum1, h_idem, h_pw⟩ := orthogonal_idempotents_output_props
    name π lift fuel cois l hker hlift hidem horth hsum hres
  have h_orth_ne : ∀ e ∈ l, ∀ f ∈ l, e ≠ f → e * f = 0 ∧ f * e = 0 := by
    intro e he f hf hne
    have hsymm : Symmetric (fun a b : A => a * b = 0 ∧ b * a = 0) :=
      fun a b hab => ⟨hab.2, hab.1⟩
    exact h_pw.forall hsymm he hf hne
  refine ⟨hsum1, h_idem, h_orth_ne, ?_⟩
  rw [is_id_decomp_iff_pairwise]
  exact ⟨hsum1, h_idem, h_pw⟩

/-- Witness for C1 at `A = Q = ℤ`, `π = id`, `lift = id`, `cois = [1]`:
the algorithm returns `[1]`, which decomposes the identity. -/
theorem orthogonal_idempotents_central_mod_radical_spec_witness :
    ([(1 : ℤ)].sum = 1)
    ∧ (∀ e ∈ [(1 : ℤ)], e * e = e)
    ∧ (∀ e ∈ [(1 : ℤ)], ∀ f ∈ [(1 : ℤ)], e ≠ f → e * f = 0 ∧ f * e = 0)
    ∧ is_identity_decomposition_into_orthogonal_idempotents [(1 : ℤ)] = true :=
  orthogonal_idempotents_central_mod_radical_spec
    (fun _ => "") (RingHom.id ℤ) (fun a => a) 1 [1] [1]
    (fun a ha => ⟨1, by simpa using ha⟩)
    (by simp) (by simp) (by simp) (by simp) (by rfl)

/-- The loop appends exactly one idempotent per central idempotent
processed. -/
theorem oicmrLoop_length (name : Q → String) (retract : A → Q) (lift : Q → A)
    (fuel : ℕ) :
    ∀ (gs : List Q) (f : A) (l : List A),
      oicmrLoop name retract lift fuel f gs = some l → l.length = gs.length := by
  intro gs
  induction gs with
  | nil =>
    intro f l h
    obtain rfl : ([] : List A) = l := by simpa [oicmrLoop] using h
    rfl
  | cons g gs ih =>
    intro f l h
    rw [oicmrLoop] at h
    rcases hm : idempotent_lift name retract fuel ((1 - f) * lift g * (1 - f))
      with msg | ofi
    · rw [hm] at h
      exact absurd h (by simp)
    · rw [hm] at h
      rcases ofi with _ | fi
      · exact absurd h (by simp)
      · dsimp only at h
        simp only [Option.map_eq_some'] at h
        obtain ⟨l', hl', rfl⟩ := h
        simp [ih (f + fi) l' hl']

end OrthogonalIdempotents

/-! ## `radical_basis`

Source (lines 155-203).  The method first checks that the base ring is a
field (raising `NotImplementedError("the base ring must be a field")`
otherwise), then branches on the characteristic: in characteristic zero
it builds the trace-form matrix and returns its kernel basis; in
characteristic `p > 0` it runs the iterated kernel/root procedure on the
left-regular matrices of the basis elements.

The algebra is given by coordinates: basis `Fin n`, structure constants
`product_on_basis`, and the coordinate vector of the unit.  Elements are
coordinate vectors, so `from_vector` is the identity.  The matrix
kernels, characteristic-polynomial coefficients and `s`-th roots are the
external linear-algebra backend, passed in as an oracle.  The `while`
loop is fuelled; a `none` result means the loop is still running.
-/

/-- Raisable errors, distinguishing Python's exception classes. -/
inductive SageError where
  | valueError : String → SageError
  | notImplementedError : String → SageError
deriving DecidableEq

section RadicalBasis

variable {R : Type} [CommRing R] [DecidableEq R]

/-- The data of the base ring that `radical_basis` consults:
`F.is_field()`, `F.characteristic()` and `F.order()` (the latter is
`⊤` for an infinite field). -/
structure BaseRingData where
  is_field : Bool
  char : ℕ
  order : ℕ∞

/-- An algebra with distinguished basis, given by structure constants:
`product_on_basis i j` is the coordinate vector of `b_i * b_j`, and
`one` is the coordinate vector of the unit. -/
structure AlgebraData (R : Type) where
  n : ℕ
  product_on_basis : Fin n → Fin n → Fin n → R
  one : Fin n → R

/-- `b_k.on_left_matrix()`: the matrix of left multiplication by the
basis element `b_k`; column `j` holds the coordinates of `b_k * b_j`. -/
def AlgebraData.on_left_matrix (alg : AlgebraData R) (k : Fin alg.n) :
    Matrix (Fin alg.n) (Fin alg.n) R :=
  Matrix.of fun i j => alg.product_on_basis k j i

/-- The external linear-algebra backend used by `radical_basis`:
characteristic-polynomial coefficients, left kernels (`G.left_kernel()`
and `mat.kernel()`), and the `s`-th root map (`nth_root` or
`x^(1/s)`). -/
structure LinearAlgebraOracle (R : Type) (n : ℕ) where
  charpoly_coeff : Matrix (Fin n) (Fin n) R → ℕ → R
  left_kernel_basis : List (List R) → List (List R)
  kernel_basis : List (List R) → List (List R)
  root_fcn : ℕ → R → R

/-- The `while s <= n` loop of the characteristic-`p` branch. -/
def radicalLoop {n : ℕ} (orc : LinearAlgebraOracle R n) (p : ℕ) (order : ℕ∞) :
    ℕ → ℕ → List (Matrix (Fin n) (Fin n) R) →
    Option (List (Matrix (Fin n) (Fin n) R))
  | 0, s, B => if s ≤ n then none else some B
  | fuel + 1, s, B =>
    if s ≤ n then
      let BB := B ++ [(1 : Matrix (Fin n) (Fin n) R)]
      let G : List (List R) :=
        B.map (fun b => BB.map (fun bb =>
          (-1) ^ s * orc.charpoly_coeff (b * bb) (n - s)))
      let C := orc.left_kernel_basis G
      let C' := if 1 < s ∧ (s : ℕ∞) < order then
          C.map (fun c => c.map (orc.root_fcn s)) else C
      let B' := C'.map (fun c => ((c.zip B).map (fun cb => cb.1 • cb.2)).sum)
      radicalLoop orc p order fuel (p * s) B'
    else some B

/-- Embedding of `radical_basis`.  The outer `Except` is the raise of
the field check; the inner `Option` is the fuelled loop of the
characteristic-`p` branch. -/
def radical_basis (base : BaseRingData) (alg : AlgebraData R)
    (orc : LinearAlgebraOracle R alg.n) (fuel : ℕ) :
    Except SageError (Option (List (Fin alg.n → R))) :=
  if base.is_field = false then
    Except.error (SageError.notImplementedError "the base ring must be a field")
  else if base.char = 0 then
    let mat : List (List R) :=
      (List.finRange alg.n).map (fun y => (List.finRange alg.n).map (fun x =>
        ∑ i : Fin alg.n, ∑ j : Fin alg.n,
          alg.product_on_basis x j i * alg.product_on_basis y i j))
    Except.ok (some ((orc.kernel_basis mat).map (fun v => fun i => v.getD i 0)))
  else
    match radicalLoop orc base.char base.order fuel 1
        ((List.finRange alg.n).map alg.on_left_matrix) with
    | none => Except.ok none
    | some Bf => Except.ok (some (Bf.map (fun b => b.mulVec alg.one)))

/-- One round of the characteristic-`p` procedure, as the specification
words it: form the matrix `G` whose `(row b, column bb)` entry is
`(-1)^s` times the degree-`(n-s)` coefficient of the characteristic
polynomial of `b*bb` (with the identity matrix appended to the column
list), take its left kernel, apply an `s`-th root to each kernel-vector
coordinate exactly when `1 < s < |F|`, replace the working list by the
resulting linear combinations, and multiply `s` by `p`. -/
def radicalRound {n : ℕ} (orc : LinearAlgebraOracle R n) (p : ℕ) (order : ℕ∞)
    (s : ℕ) (B : List (Matrix (Fin n) (Fin n) R)) :
    ℕ × List (Matrix (Fin n) (Fin n) R) :=
  let G : List (List R) :=
    B.map (fun b => (B ++ [(1 : Matrix (Fin n) (Fin n) R)]).map (fun bb =>
      (-1) ^ s * orc.charpoly_coeff (b * bb) (n - s)))
  let C := orc.left_kernel_basis G
  let C' := if 1 < s ∧ (s : ℕ∞) < order then
      C.map (fun c => c.map (orc.root_fcn s)) else C
  (p * s, C'.map (fun c => ((c.zip B).map (fun cb => cb.1 • cb.2)).sum))

omit [DecidableEq R] in
/-- C3: in the characteristic-`p > 0` branch, `radical_basis` starts
from `s = 1` with the left-regular matrices of all basis elements as the
working list, performs `radicalRound` (the round the specification
describes) as long as `s ≤ n`, stops as soon as `s > n`, and obtains the
radical basis by applying the matrices of the final working list to the
coordinate vector of the unit. -/
theorem radical_basis_char_p_structure (base : BaseRingData) (alg : AlgebraData R)
    (orc : LinearAlgebraOracle R alg.n) (fuel : ℕ)
    (hfield : base.is_field = true) (hchar : base.char ≠ 0) :
    (radical_basis base alg orc fuel =
      match radicalLoop orc base.char base.order fuel 1
          ((List.finRange alg.n).map alg.on_left_matrix) with
      | none => Except.ok none
      | some Bf => Except.ok (some (Bf.map (fun b => b.mulVec alg.one))))
    ∧ (∀ (s : ℕ) (B : List (Matrix (Fin alg.n) (Fin alg.n) R)) (fuel' : ℕ),
        s ≤ alg.n →
          radicalLoop orc base.char base.order (fuel' + 1) s B =
            radicalLoop orc base.char base.order fuel'
              (radicalRound orc base.char base.order s B).1
              (radicalRound orc base.char base.order s B).2)
    ∧ (∀ (s : ℕ) (B : List (Matrix (Fin alg.n) (Fin alg.n) R)) (fuel' : ℕ),
        ¬ s ≤ alg.n →
          radicalLoop orc base.char base.order fuel' s B = some B)
    ∧ (∀ (s : ℕ) (B : List (Matrix (Fin alg.n) (Fin alg.n) R)),
        (radicalRound orc base.char base.order s B).1 = base.char * s) := by
  refine ⟨?_, ?_, ?_, fun s B => rfl⟩
  · unfold radical_basis
    rw [if_neg (by rw [hfield]; simp), if_neg hchar]
  · intro s B fuel' hs
    rw [radicalLoop, if_pos hs]
    rfl
  · intro s B fuel' hs
    cases fuel' with
    | zero => rw [radicalLoop, if_neg hs]
    | succ m => rw [radicalLoop, if_neg hs]

/-- Concrete data for the witnesses: a field of characteristic 2 and
order 4, a one-dimensional algebra over `ℤ`, and a trivial oracle. -/
def fieldBase2 : BaseRingData := ⟨true, 2, (4 : ℕ∞)⟩

def nonFieldBase : BaseRingData := ⟨false, 0, ⊤⟩

def algZ : AlgebraData ℤ := ⟨1, fun _ _ _ => 1, fun _ => 1⟩

def orcZ : LinearAlgebraOracle ℤ 1 := ⟨fun _ _ => 0, fun _ => [], fun _ => [], fun _ x => x⟩

/-- Witness for C3: the structural description evaluated on concrete
data. -/
theorem radical_basis_char_p_structure_witness :
    radical_basis fieldBase2 algZ orcZ 3 =
      match radicalLoop orcZ 2 (4 : ℕ∞) 3 1
          ((List.finRange 1).map algZ.on_left_matrix) with
      | none => Except.ok none
      | some Bf => Except.ok (some (Bf.map (fun b => b.mulVec algZ.one))) :=
  (radical_basis_char_p_structure fieldBase2 algZ orcZ 3 rfl (by decide)).1

/-- C6 counterexample: on a non-field base ring, `radical_basis` raises
`NotImplementedError` with message "the base ring must be a field" — not
a `ValueError`, and the message carries a leading "the". -/
theorem radical_basis_non_field_not_valueError :
    radical_basis nonFieldBase algZ orcZ 0 =
      Except.error (SageError.notImplementedError "the base ring must be a field")
    ∧ ∀ msg, radical_basis nonFieldBase algZ orcZ 0 ≠
        Except.error (SageError.valueError msg) := by
  have h0 : radical_basis nonFieldBase algZ orcZ 0 =
      Except.error (SageError.notImplementedError "the base ring must be a field") := rfl
  refine ⟨h0, ?_⟩
  intro msg h
  rw [h0] at h
  exact absurd h (by simp)

omit [DecidableEq R] in
/-- C6 (amended): for every algebra whose base ring is not a field,
`radical_basis` raises `NotImplementedError` with message
"the base ring must be a field", before performing any computation: the
result does not depend on the linear-algebra oracle or on the fuel. -/
theorem radical_basis_non_field (base : BaseRingData) (alg : AlgebraData R)
    (orc : LinearAlgebraOracle R alg.n) (fuel : ℕ)
    (h : base.is_field = false) :
    (radical_basis base alg orc fuel =
      Except.error (SageError.notImplementedError "the base ring must be a field"))
    ∧ ∀ (orc' : LinearAlgebraOracle R alg.n) (fuel' : ℕ),
        radical_basis base alg orc fuel = radical_basis base alg orc' fuel' := by
  constructor
  · unfold radical_basis
    rw [if_pos h]
  · intro orc' fuel'
    unfold radical_basis
    rw [if_pos h, if_pos h]

/-- Witness for the amended C6 on concrete non-field data. -/
theorem radical_basis_non_field_witness :
    radical_basis nonFieldBase algZ orcZ 7 =
      Except.error (SageError.notImplementedError "the base ring must be a field") :=
  (radical_basis_non_field nonFieldBase algZ orcZ 7 rfl).1

end RadicalBasis

/-! ## `__invert__`

Source (lines 1159-1181):

    alg = self.parent()
    R = alg.base_ring()
    ob = None
    try:
        ob = alg.one_basis()
    except (AttributeError, TypeError, ValueError):
        pass
    if ob is not None:
        mc = self.monomial_coefficients(copy=False)
        if len(mc) == 1 and ob in mc:
            try:
                return alg.term(ob, R(~mc[ob]))
            except (ValueError, TypeError):
                raise ValueError("cannot invert self (= %s)" % self)

    e = alg.one().to_vector()
    A = self.to_matrix()
    try:
        inv = A.solve_right(e)
        inv.change_ring(R)
        return alg.from_vector(inv)
    except (ValueError, TypeError):
        raise ValueError("cannot invert self (= %s)" % self)

Elements are coordinate vectors over the basis `Fin n`; `one_basis` is
an `Option` (absent when the probe raised); base-ring scalar inversion
(`R(~c)`, which can fail by coercion), the linear solver and the
`change_ring` coercion check are external collaborators.
-/

section Inversion

variable {R : Type} [CommRing R] [DecidableEq R]

/-- `alg.term(ob, c)`: the element with single coordinate `c` at `ob`. -/
def term {n : ℕ} (ob : Fin n) (c : R) : Fin n → R :=
  fun j => if j = ob then c else 0

/-- The product of two elements given by coordinates: the bilinear
extension of `product_on_basis`. -/
def AlgebraData.mul (alg : AlgebraData R) (x y : Fin alg.n → R) : Fin alg.n → R :=
  fun i => ∑ k : Fin alg.n, ∑ j : Fin alg.n, x k * y j * alg.product_on_basis k j i

/-- `x.to_matrix()` (side left): column `j` holds the coordinates of
`x * b_j`. -/
def AlgebraData.to_matrix (alg : AlgebraData R) (x : Fin alg.n → R) :
    Matrix (Fin alg.n) (Fin alg.n) R :=
  Matrix.of fun i j => ∑ k : Fin alg.n, x k * alg.product_on_basis k j i

/-- The collaborators of `__invert__`: base-ring scalar inversion
(`R(~c)`, `none` when it raises), the linear solver `A.solve_right(e)`,
and the `change_ring` coercion check on the solution. -/
structure InversionOracle (R : Type) (n : ℕ) where
  inv_scalar : R → Option R
  solve_right : Matrix (Fin n) (Fin n) R → (Fin n → R) → Option (Fin n → R)
  change_ring_ok : (Fin n → R) → Bool

/-- Embedding of `__invert__`. -/
def invert (alg : AlgebraData R) (one_basis : Option (Fin alg.n))
    (orc : InversionOracle R alg.n) (name : (Fin alg.n → R) → String)
    (x : Fin alg.n → R) : Except String (Fin alg.n → R) :=
  let fallback : Except String (Fin alg.n → R) :=
    match orc.solve_right (alg.to_matrix x) alg.one with
    | some inv =>
        if orc.change_ring_ok inv then Except.ok inv
        else Except.error ("cannot invert self (= " ++ name x ++ ")")
    | none => Except.error ("cannot invert self (= " ++ name x ++ ")")
  match one_basis with
  | some ob =>
    if x ob ≠ 0 ∧ ∀ j : Fin alg.n, j ≠ ob → x j = 0 then
      match orc.inv_scalar (x ob) with
      | some c => Except.ok (term ob c)
      | none => Except.error ("cannot invert self (= " ++ name x ++ ")")
    else fallback
  | none => fallback

omit [DecidableEq R] in
theorem to_matrix_mulVec (alg : AlgebraData R) (x v : Fin alg.n → R) :
    (alg.to_matrix x).mulVec v = alg.mul x v := by
  funext i
  unfold AlgebraData.to_matrix AlgebraData.mul Matrix.mulVec Matrix.dotProduct
  simp only [Matrix.of_apply, Finset.sum_mul]
  rw [Finset.sum_comm]
  refine Finset.sum_congr rfl fun k _ => Finset.sum_congr rfl fun j _ => ?_
  ring

/-- C9: `__invert__` either returns an inverse of `x` or raises a value
error whose message names the element and says "cannot invert self":
when a `one_basis` key is exposed and `x`'s support is exactly that key,
the scalar coefficient is inverted directly (a failed scalar
inversion/coercion raising the error); otherwise the left-regular matrix
of `x` is built and `A·v = e` is solved for the coordinate vector `e` of
the unit, a failed solve or a solution that does not coerce back into
the base ring raising the error.  The correctness hypotheses are the
collaborator guarantees: the solver returns solutions, scalar inversion
returns inverses, and `one_basis` really indexes the unit basis
element. -/
theorem invert_spec (alg : AlgebraData R) (one_basis : Option (Fin alg.n))
    (orc : InversionOracle R alg.n) (name : (Fin alg.n → R) → String)
    (x : Fin alg.n → R)
    (hsolve : ∀ M e v, orc.solve_right M e = some v → M.mulVec v = e)
    (hinv : ∀ c c', orc.inv_scalar c = some c' → c * c' = 1)
    (hone : ∀ ob, one_basis = some ob →
      (∀ i, alg.one i = if i = ob then 1 else 0)
      ∧ (∀ i, alg.product_on_basis ob ob i = alg.one i)) :
    (∀ msg, invert alg one_basis orc name x = Except.error msg →
        msg = "cannot invert self (= " ++ name x ++ ")")
    ∧ (∀ v, invert alg one_basis orc name x = Except.ok v →
        alg.mul x v = alg.one)
    ∧ (∀ ob, one_basis = some ob →
        (x ob ≠ 0 ∧ ∀ j : Fin alg.n, j ≠ ob → x j = 0) →
        invert alg one_basis orc name x =
          match orc.inv_scalar (x ob) with
          | some c => Except.ok (term ob c)
          | none => Except.error ("cannot invert self (= " ++ name x ++ ")"))
    ∧ ((one_basis = none ∨ ∃ ob, one_basis = some ob ∧
          ¬(x ob ≠ 0 ∧ ∀ j : Fin alg.n, j ≠ ob → x j = 0)) →
        invert alg one_basis orc name x =
          match orc.solve_right (alg.to_matrix x) alg.one with
          | some inv =>
              if orc.change_ring_ok inv then Except.ok inv
              else Except.error ("cannot invert self (= " ++ name x ++ ")")
          | none => Except.error ("cannot invert self (= " ++ name x ++ ")")) := by
  -- the value returned by the solver branch is a right inverse
  have hfallback_ok : ∀ v,
      (match orc.solve_right (alg.to_matrix x) alg.one with
        | some inv =>
            if orc.change_ring_ok inv then Except.ok inv
            else Except.error ("cannot invert self (= " ++ name x ++ ")")
        | none => Except.error ("cannot invert self (= " ++ name x ++ ")")) =
          (Except.ok v : Except String (Fin alg.n → R)) →
      alg.mul x v = alg.one := by
    intro v hv
    rcases hsol : orc.solve_right (alg.to_matrix x) alg.one with _ | w
    · rw [hsol] at hv
      exact absurd hv (by simp)
    · rw [hsol] at hv
      dsimp only at hv
      by_cases hcr : orc.change_ring_ok w = true
      · rw [if_pos hcr] at hv
        obtain rfl : w = v := by simpa using hv
        rw [← to_matrix_mulVec]
        exact hsolve _ _ _ hsol
      · rw [if_neg hcr] at hv
        exact absurd hv (by simp)
  have hfallback_err : ∀ msg,
      (match orc.solve_right (alg.to_matrix x) alg.one with
        | some inv =>
            if orc.change_ring_ok inv then Except.ok inv
            else Except.error ("cannot invert self (= " ++ name x ++ ")")
        | none => Except.error ("cannot invert self (= " ++ name x ++ ")")) =
          (Except.error msg : Except String (Fin alg.n → R)) →
      msg = "cannot invert self (= " ++ name x ++ ")" := by
    intro msg hv
    rcases hsol : orc.solve_right (alg.to_matrix x) alg.one with _ | w
    · rw [hsol] at hv
      simpa using hv.symm
    · rw [hsol] at hv
      dsimp only at hv
      by_cases hcr : orc.change_ring_ok w = true
      · rw [if_pos hcr] at hv
        exact absurd hv (by simp)
      · rw [if_neg hcr] at hv
        simpa using hv.symm
  cases one_basis with
  | none =>
    refine ⟨?_, ?_, ?_, ?_⟩
    · intro msg h
      exact hfallback_err msg h
    · intro v h
      exact hfallback_ok v h
    · intro ob h
      exact absurd h (by simp)
    · intro _
      rfl
  | some ob =>
    by_cases hsupp : x ob ≠ 0 ∧ ∀ j : Fin alg.n, j ≠ ob → x j = 0
    · -- fast path
      have hred : invert alg (some ob) orc name x =
          match orc.inv_scalar (x ob) with
          | some c => Except.ok (term ob c)
          | none => Except.error ("cannot invert self (= " ++ name x ++ ")") := by
        unfold invert
        dsimp only
        rw [if_pos hsupp]
      refine ⟨?_, ?_, ?_, ?_⟩
      · intro msg h
        rw [hred] at h
        rcases hs : orc.inv_scalar (x ob) with _ | c
        · rw [hs] at h
          simpa using h.symm
        · rw [hs] at h
          exact absurd h (by simp)
      · intro v h
        rw [hred] at h
        rcases hs : orc.inv_scalar (x ob) with _ | c
        · rw [hs] at h
          exact absurd h (by simp)
        · rw [hs] at h
          obtain rfl : term ob c = v := by simpa using h
          -- x has support {ob}; multiply out
          have hxc : x ob * c = 1 := hinv _ _ hs
          obtain ⟨hone1, honeP⟩ := hone ob rfl
          funext i
          show (∑ k : Fin alg.n, ∑ j : Fin alg.n,
              x k * term ob c j * alg.product_on_basis k j i) = alg.one i
          have houter : ∀ k ∈ Finset.univ, k ≠ ob →
              (∑ j : Fin alg.n, x k * term ob c j * alg.product_on_basis k j i) = 0 := by
            intro k _ hk
            have hx0 : x k = 0 := hsupp.2 k hk
            simp [hx0]
          have hinner : ∀ j ∈ Finset.univ, j ≠ ob →
              x ob * term ob c j * alg.product_on_basis ob j i = 0 := by
            intro j _ hj
            unfold term
            rw [if_neg hj, mul_zero, zero_mul]
          calc (∑ k : Fin alg.n, ∑ j : Fin alg.n,
                x k * term ob c j * alg.product_on_basis k j i)
              = ∑ j : Fin alg.n, x ob * term ob c j * alg.product_on_basis ob j i :=
                Finset.sum_eq_single ob houter
                  (fun hmem => absurd (Finset.mem_univ ob) hmem)
            _ = x ob * term ob c ob * alg.product_on_basis ob ob i :=
                Finset.sum_eq_single ob hinner
                  (fun hmem => absurd (Finset.mem_univ ob) hmem)
            _ = alg.one i := by
                unfold term
                rw [if_pos rfl, honeP i, hxc, one_mul]
      · intro ob' h hsupp'
        obtain rfl : ob = ob' := by simpa using h
        exact hred
      · rintro (h | ⟨ob', h, hns⟩)
        · exact absurd h (by simp)
        · obtain rfl : ob = ob' := by simpa using h
          exact absurd hsupp hns
    · -- support test fails: solver branch
      have hred : invert alg (some ob) orc name x =
          match orc.solve_right (alg.to_matrix x) alg.one with
          | some inv =>
              if orc.change_ring_ok inv then Except.ok inv
              else Except.error ("cannot invert self (= " ++ name x ++ ")")
          | none => Except.error ("cannot invert self (= " ++ name x ++ ")") := by
        unfold invert
        dsimp only
        rw [if_neg hsupp]
      refine ⟨?_, ?_, ?_, ?_⟩
      · intro msg h
        rw [hred] at h
        exact hfallback_err msg h
      · intro v h
        rw [hred] at h
        exact hfallback_ok v h
      · intro ob' h hsupp'
        obtain rfl : ob = ob' := by simpa using h
        exact absurd hsupp' hsupp
      · intro _
        exact hred

/-- Concrete collaborator data for the C9 witness: scalar inversion in
`ℤ` succeeds only on `1` (coercion of `1/c` back to `ℤ` fails
otherwise), and the solver always fails. -/
def orcZinv : InversionOracle ℤ 1 :=
  ⟨fun c => if c = 1 then some 1 else none, fun _ _ => none, fun _ => true⟩

/-- Witness for C9: over the one-dimensional `ℤ`-algebra, inverting the
unit through the `one_basis` fast path returns a genuine inverse. -/
theorem invert_spec_witness :
    algZ.mul (fun _ => 1) (term (0 : Fin 1) (1 : ℤ)) = algZ.one :=
  (invert_spec algZ (some (0 : Fin 1)) orcZinv (fun _ => "x") (fun _ => 1)
    (fun M e v h => absurd h (by simp [orcZinv]))
    (fun c c' h => by
      by_cases hc : c = 1
      · subst hc
        have h1 : (1 : ℤ) = c' := by simpa [orcZinv] using h
        rw [← h1, one_mul]
      · exact absurd h (by simp [orcZinv, hc]))
    (fun ob h => by
      obtain rfl : (0 : Fin 1) = ob := by simpa using h
      exact ⟨fun i => by simp [algZ, Fin.eq_zero i], fun i => by simp [algZ]⟩)).2.1
    (term (0 : Fin 1) (1 : ℤ)) (by rfl)

end Inversion

/-! ## `peirce_summand`, `principal_ideal`, `peirce_decomposition`

Source: `peirce_summand(ei, ej)` (lines 815-821) is the image of the
linear map defined on the basis by `k ↦ ei * B[k] * ej`, i.e. the
subspace `e_i A e_j`; `principal_ideal(a, side='left')` (lines 436-437)
is spanned by `{b * a : b basis}`, i.e. the image of right
multiplication by `a`.  Here the algebra is an honest `F`-algebra and
subspaces are `Submodule`s, with `dimension()` as `Module.finrank`.
-/

section Projections

variable {F : Type} [Field F] {M : Type} [AddCommGroup M] [Module F M]

theorem range_add_eq_sup {P Q : M →ₗ[F] M} (hP : P ∘ₗ P = P) (hQ : Q ∘ₗ Q = Q)
    (hPQ : P ∘ₗ Q = 0) (hQP : Q ∘ₗ P = 0) :
    LinearMap.range (P + Q) = LinearMap.range P ⊔ LinearMap.range Q := by
  have hPP : ∀ x, P (P x) = P x := fun x => by
    simpa using LinearMap.congr_fun hP x
  have hQQ : ∀ x, Q (Q x) = Q x := fun x => by
    simpa using LinearMap.congr_fun hQ x
  have hPQ' : ∀ x, P (Q x) = 0 := fun x => by
    simpa using LinearMap.congr_fun hPQ x
  have hQP' : ∀ x, Q (P x) = 0 := fun x => by
    simpa using LinearMap.congr_fun hQP x
  apply le_antisymm
  · rintro y ⟨x, rfl⟩
    exact Submodule.mem_sup.mpr ⟨P x, ⟨x, rfl⟩, Q x, ⟨x, rfl⟩, rfl⟩
  · rw [sup_le_iff]
    constructor
    · rintro y ⟨x, rfl⟩
      refine ⟨P x, ?_⟩
      simp [hPP, hQP']
    · rintro y ⟨x, rfl⟩
      refine ⟨Q x, ?_⟩
      simp [hQQ, hPQ']

theorem range_inf_eq_bot {P Q : M →ₗ[F] M} (hP : P ∘ₗ P = P)
    (hPQ : P ∘ₗ Q = 0) :
    LinearMap.range P ⊓ LinearMap.range Q = ⊥ := by
  have hPP : ∀ x, P (P x) = P x := fun x => by
    simpa using LinearMap.congr_fun hP x
  have hPQ' : ∀ x, P (Q x) = 0 := fun x => by
    simpa using LinearMap.congr_fun hPQ x
  rw [eq_bot_iff]
  rintro y ⟨⟨x, rfl⟩, ⟨z, hz⟩⟩
  have h1 : P (P x) = P x := hPP x
  have h2 : P (P x) = 0 := by rw [← hz, hPQ']
  rw [Submodule.mem_bot, ← h1, h2]

theorem finrank_range_add [FiniteDimensional F M] {P Q : M →ₗ[F] M}
    (hP : P ∘ₗ P = P) (hQ : Q ∘ₗ Q = Q)
    (hPQ : P ∘ₗ Q = 0) (hQP : Q ∘ₗ P = 0) :
    Module.finrank F (LinearMap.range (P + Q)) =
      Module.finrank F (LinearMap.range P) + Module.finrank F (LinearMap.range Q) := by
  have hkey := Submodule.finrank_sup_add_finrank_inf_eq
    (LinearMap.range P) (LinearMap.range Q)
  rw [range_inf_eq_bot hP hPQ, finrank_bot, add_zero] at hkey
  rw [range_add_eq_sup hP hQ hPQ hQP]
  exact hkey

/-- A finite family of pairwise-orthogonal idempotent endomorphisms:
its partial sums are idempotent and the rank of a partial sum is the sum
of the ranks. -/
theorem finrank_sum_proj {ι : Type} [DecidableEq ι] [FiniteDimensional F M]
    (P : ι → M →ₗ[F] M)
    (hidem : ∀ i, P i ∘ₗ P i = P i)
    (horth : ∀ i j, i ≠ j → P i ∘ₗ P j = 0) (s : Finset ι) :
    ((∑ i ∈ s, P i) ∘ₗ (∑ i ∈ s, P i) = ∑ i ∈ s, P i)
    ∧ Module.finrank F (LinearMap.range (∑ i ∈ s, P i)) =
        ∑ i ∈ s, Module.finrank F (LinearMap.range (P i)) := by
  induction s using Finset.induction_on with
  | empty =>
    constructor
    · simp
    · simp
  | @insert a s ha ih =>
    have hPaS : P a ∘ₗ (∑ i ∈ s, P i) = 0 := by
      apply LinearMap.ext
      intro x
      rw [LinearMap.comp_apply, LinearMap.sum_apply, map_sum]
      rw [LinearMap.zero_apply]
      refine Finset.sum_eq_zero fun i hi => ?_
      have hne : a ≠ i := fun h => ha (h ▸ hi)
      simpa using LinearMap.congr_fun (horth a i hne) x
    have hSPa : (∑ i ∈ s, P i) ∘ₗ P a = 0 := by
      apply LinearMap.ext
      intro x
      rw [LinearMap.comp_apply, LinearMap.sum_apply, LinearMap.zero_apply]
      refine Finset.sum_eq_zero fun i hi => ?_
      have hne : i ≠ a := fun h => ha (h ▸ hi)
      simpa using LinearMap.congr_fun (horth i a hne) x
    have hsum_idem : (P a + ∑ i ∈ s, P i) ∘ₗ (P a + ∑ i ∈ s, P i) =
        P a + ∑ i ∈ s, P i := by
      rw [LinearMap.add_comp, LinearMap.comp_add, LinearMap.comp_add,
        hidem a, ih.1, hPaS, hSPa]
      rw [add_zero, zero_add]
    constructor
    · rw [Finset.sum_insert ha]
      exact hsum_idem
    · rw [Finset.sum_insert ha, Finset.sum_insert ha,
        finrank_range_add (hidem a) ih.1 hPaS hSPa, ih.2]

/-- A complete family of pairwise-orthogonal idempotent endomorphisms
summing to the identity decomposes the dimension of the space. -/
theorem finrank_sum_proj_univ {ι : Type} [Fintype ι] [DecidableEq ι]
    [FiniteDimensional F M] (P : ι → M →ₗ[F] M)
    (hidem : ∀ i, P i ∘ₗ P i = P i)
    (horth : ∀ i j, i ≠ j → P i ∘ₗ P j = 0)
    (hsum : ∑ i, P i = LinearMap.id) :
    ∑ i, Module.finrank F (LinearMap.range (P i)) = Module.finrank F M := by
  have h := (finrank_sum_proj P hidem horth Finset.univ).2
  rw [hsum, LinearMap.range_id, finrank_top] at h
  exact h.symm

end Projections

section Peirce

variable (F : Type) [Field F] {A : Type} [Ring A] [Algebra F A]

/-- Embedding of `peirce_summand(ei, ej)`: the subspace `e_i A e_j`,
the image of the linear map defined on the basis by
`k ↦ ei * B[k] * ej`, i.e. of `a ↦ (ei * a) * ej`. -/
def peirce_summand (ei ej : A) : Submodule F A :=
  LinearMap.range ((LinearMap.mulRight F ej).comp (LinearMap.mulLeft F ei))

/-- Embedding of `principal_ideal(a)` (default side `'left'`): the
subspace spanned by `{b * a : b ∈ basis}`, i.e. the image of right
multiplication by `a`. -/
def principal_ideal (a : A) : Submodule F A :=
  LinearMap.range (LinearMap.mulRight F a)

theorem peirce_summand_one_one : peirce_summand F (1 : A) 1 = ⊤ := by
  unfold peirce_summand
  rw [LinearMap.mulRight_one, LinearMap.mulLeft_one, LinearMap.id_comp]
  exact LinearMap.range_id

theorem principal_ideal_one : principal_ideal F (1 : A) = ⊤ := by
  unfold principal_ideal
  rw [LinearMap.mulRight_one]
  exact LinearMap.range_id

theorem finrank_principal_ideal_one :
    Module.finrank F (principal_ideal F (1 : A)) = Module.finrank F A := by
  rw [principal_ideal_one, finrank_top]

theorem finrank_peirce_summand_one :
    Module.finrank F (peirce_summand F (1 : A) (1 : A)) = Module.finrank F A := by
  rw [peirce_summand_one_one, finrank_top]

/-- C8: for a successful run of
`orthogonal_idempotents_central_mod_radical` on a finite-dimensional
algebra, the dimensions of the Peirce summands over all pairs of the
returned idempotents sum to the dimension of the algebra. -/
theorem peirce_summand_dimension_sum
    {A Q : Type} [Ring A] [Ring Q] [DecidableEq A] [DecidableEq Q]
    [Algebra F A] [FiniteDimensional F A]
    (name : Q → String) (π : A →+* Q) (lift : Q → A) (fuel : ℕ)
    (cois : List Q) (l : List A)
    (hker : ∀ a : A, π a = 0 → IsNilpotent a)
    (hlift : ∀ g ∈ cois, π (lift g) = g)
    (hidem : ∀ g ∈ cois, g * g = g)
    (horth : cois.Pairwise (fun a b => a * b = 0 ∧ b * a = 0))
    (hsum : cois.sum = 1)
    (hres : orthogonal_idempotents_central_mod_radical name (⇑π) lift fuel cois = some l) :
    ∑ i : Fin l.length, ∑ j : Fin l.length,
      Module.finrank F (peirce_summand F (l.get i) (l.get j)) =
        Module.finrank F A := by
  obtain ⟨hsum1, h_idem, h_pw⟩ := orthogonal_idempotents_output_props
    name π lift fuel cois l hker hlift hidem horth hsum hres
  have h_orth_pos : ∀ i j : Fin l.length, i ≠ j → l.get i * l.get j = 0 := by
    rw [List.pairwise_iff_get] at h_pw
    intro i j hij
    rcases lt_or_gt_of_ne (fun hh => hij (Fin.ext hh)) with hlt | hgt
    · exact (h_pw i j hlt).1
    · exact (h_pw j i hgt).2
  have h_idem_pos : ∀ i : Fin l.length, l.get i * l.get i = l.get i :=
    fun i => h_idem (l.get i) (l.get_mem i.val i.isLt)
  set P : Fin l.length × Fin l.length → A →ₗ[F] A :=
    fun p => (LinearMap.mulRight F (l.get p.2)).comp (LinearMap.mulLeft F (l.get p.1))
    with hPdef
  have hidemP : ∀ p, P p ∘ₗ P p = P p := by
    rintro ⟨i, j⟩
    apply LinearMap.ext
    intro a
    simp only [hPdef, LinearMap.comp_apply, LinearMap.mulLeft_apply,
      LinearMap.mulRight_apply]
    have hassoc : l.get i * (l.get i * a * l.get j) * l.get j =
        (l.get i * l.get i) * a * (l.get j * l.get j) := by noncomm_ring
    rw [hassoc, h_idem_pos i, h_idem_pos j]
  have horthP : ∀ p q, p ≠ q → P p ∘ₗ P q = 0 := by
    rintro ⟨i, j⟩ ⟨k, m⟩ hne
    apply LinearMap.ext
    intro a
    simp only [hPdef, LinearMap.comp_apply, LinearMap.mulLeft_apply,
      LinearMap.mulRight_apply, LinearMap.zero_apply]
    have hassoc : l.get i * (l.get k * a * l.get m) * l.get j =
        (l.get i * l.get k) * a * (l.get m * l.get j) := by noncomm_ring
    rw [hassoc]
    by_cases hik : i = k
    · have hjm : j ≠ m := by
        intro h
        exact hne (by rw [hik, h])
      rw [h_orth_pos m j (Ne.symm hjm), mul_zero]
    · rw [h_orth_pos i k hik, zero_mul, zero_mul]
  have hgetsum : (∑ i : Fin l.length, l.get i) = l.sum := by
    conv_rhs => rw [← List.ofFn_get l]
    rw [List.sum_ofFn]
  have hsumP : (∑ p : Fin l.length × Fin l.length, P p) = LinearMap.id := by
    apply LinearMap.ext
    intro a
    rw [LinearMap.sum_apply]
    simp only [hPdef, LinearMap.comp_apply, LinearMap.mulLeft_apply,
      LinearMap.mulRight_apply, LinearMap.id_apply]
    rw [Fintype.sum_prod_type]
    calc (∑ i : Fin l.length, ∑ j : Fin l.length, l.get i * a * l.get j)
        = ∑ i : Fin l.length, (l.get i * a) * (∑ j : Fin l.length, l.get j) := by
          refine Finset.sum_congr rfl fun i _ => ?_
          rw [Finset.mul_sum]
      _ = ∑ i : Fin l.length, l.get i * a := by
          rw [hgetsum, hsum1]
          simp
      _ = (∑ i : Fin l.length, l.get i) * a := by
          rw [Finset.sum_mul]
      _ = a := by rw [hgetsum, hsum1, one_mul]
  have hfin := finrank_sum_proj_univ P hidemP horthP hsumP
  rw [Fintype.sum_prod_type] at hfin
  exact hfin

/-- Witness for C8 at the one-dimensional algebra `A = Q = F = ℚ`. -/
theorem peirce_summand_dimension_sum_witness :
    ∑ i : Fin ([(1 : ℚ)].length), ∑ j : Fin ([(1 : ℚ)].length),
      Module.finrank ℚ (peirce_summand ℚ ([(1 : ℚ)].get i) ([(1 : ℚ)].get j)) =
        Module.finrank ℚ ℚ :=
  peirce_summand_dimension_sum ℚ (fun _ => "") (RingHom.id ℚ) (fun a => a) 1 [1] [1]
    (fun a ha => ⟨1, by simpa using ha⟩)
    (by simp) (by simp) (by simp) (by simp)
    (by norm_num [orthogonal_idempotents_central_mod_radical, oicmrLoop,
          idempotent_lift, idempotentLiftLoop])

end Peirce

/-! ## `cartan_invariants_matrix`

Source (lines 694-709):

    A_quo = self.semisimple_quotient()
    idempotents_quo = A_quo.central_orthogonal_idempotents()
    # Dimension of simple modules
    dim_simples = [A_quo.principal_ideal(e).dimension().sqrt()
                  for e in idempotents_quo]
    # Orthogonal idempotents
    idempotents = self.orthogonal_idempotents_central_mod_radical()

    def C(i, j):
        summand = self.peirce_summand(idempotents[i], idempotents[j])
        return summand.dimension() / (dim_simples[i] * dim_simples[j])
    m = Matrix(ZZ, len(idempotents), C)
    m.set_immutable()
    return m

The square roots and the coercion of the rational entries into `ZZ`
silently assume a perfect-square principal-ideal dimension and integral
entries; a violation surfaces as a raise inside the matrix constructor.
The embedding folds both into the success condition (`some`).
-/

/-- A Sage integer matrix together with its mutability flag. -/
structure SageIntMatrix where
  nrows : ℕ
  ncols : ℕ
  entry : ℕ → ℕ → ℤ
  immutable : Bool

section Cartan

variable (F : Type) [Field F] {A Q : Type} [Ring A] [Ring Q]
  [DecidableEq A] [DecidableEq Q] [Algebra F A] [Algebra F Q]

/-- Embedding of `cartan_invariants_matrix`: the ambient orthogonal
idempotents come from `orthogonal_idempotents_central_mod_radical`, the
simple-module dimensions are the square roots of the dimensions of the
principal ideals generated by the central orthogonal idempotents `cois`
of the semisimple quotient, and the entries are the Peirce-summand
dimensions divided by the corresponding products. -/
noncomputable def cartan_invariants_matrix
    (name : Q → String) (retract : A → Q) (lift : Q → A) (fuel : ℕ)
    (cois : List Q) : Option SageIntMatrix :=
  match orthogonal_idempotents_central_mod_radical name retract lift fuel cois with
  | none => none
  | some idem =>
    let dim_simples : List ℕ :=
      cois.map (fun g => Nat.sqrt (Module.finrank F (principal_ideal F g)))
    let C : ℕ → ℕ → ℚ := fun i j =>
      (Module.finrank F (peirce_summand F (idem.getD i 0) (idem.getD j 0)) : ℚ) /
        ((dim_simples.getD i 0 : ℚ) * (dim_simples.getD j 0 : ℚ))
    if (∀ g ∈ cois,
          Nat.sqrt (Module.finrank F (principal_ideal F g)) ^ 2 =
            Module.finrank F (principal_ideal F g))
        ∧ (∀ i < idem.length, ∀ j < idem.length, (C i j).den = 1) then
      some ⟨idem.length, idem.length, fun i j => (C i j).num, true⟩
    else none

/-- C7: when `cartan_invariants_matrix` succeeds, it returns an
immutable square integer matrix indexed by the orthogonal idempotent
family, whose `(i, j)` entry is the dimension of
`peirce_summand(e_i, e_j)` divided by the product of the `i`-th and
`j`-th simple-module dimensions, the latter being the square roots of
the dimensions of the principal ideals generated by the central
orthogonal idempotents of the semisimple quotient. -/
theorem cartan_invariants_matrix_spec
    (name : Q → String) (retract : A → Q) (lift : Q → A) (fuel : ℕ)
    (cois : List Q) (idem : List A) (m : SageIntMatrix)
    (hidem : orthogonal_idempotents_central_mod_radical name retract lift fuel cois
      = some idem)
    (hres : cartan_invariants_matrix F name retract lift fuel cois = some m) :
    m.immutable = true
    ∧ m.nrows = idem.length
    ∧ m.ncols = idem.length
    ∧ ∀ i j : ℕ, i < idem.length → j < idem.length →
        (m.entry i j : ℚ) =
          (Module.finrank F (peirce_summand F (idem.getD i 0) (idem.getD j 0)) : ℚ) /
            ((Nat.sqrt (Module.finrank F (principal_ideal F (cois.getD i 0))) : ℚ) *
             (Nat.sqrt (Module.finrank F (principal_ideal F (cois.getD j 0))) : ℚ)) := by
  have hlen : idem.length = cois.length :=
    oicmrLoop_length name retract lift fuel cois 0 idem hidem
  unfold cartan_invariants_matrix at hres
  rw [hidem] at hres
  dsimp only at hres
  split_ifs at hres with hcond
  have hm := (Option.some.injEq _ _).mp hres
  subst hm
  refine ⟨rfl, rfl, rfl, ?_⟩
  intro i j hi hj
  dsimp only
  have hden := hcond.2 i hi j hj
  have hdim : ∀ k : ℕ, k < idem.length →
      ((cois.map (fun g =>
          Nat.sqrt (Module.finrank F (principal_ideal F g)))).getD k 0) =
        Nat.sqrt (Module.finrank F (principal_ideal F (cois.getD k 0))) := by
    intro k hk
    have hk' : k < cois.length := hlen ▸ hk
    have hk'' : k < (cois.map (fun g =>
        Nat.sqrt (Module.finrank F (principal_ideal F g)))).length := by
      simpa using hk'
    rw [List.getD_eq_getElem _ _ hk'', List.getElem_map,
      List.getD_eq_getElem _ _ hk']
  set q : ℚ :=
    (Module.finrank F (peirce_summand F (idem.getD i 0) (idem.getD j 0)) : ℚ) /
      (((cois.map (fun g =>
          Nat.sqrt (Module.finrank F (principal_ideal F g)))).getD i 0 : ℚ) *
       ((cois.map (fun g =>
          Nat.sqrt (Module.finrank F (principal_ideal F g)))).getD j 0 : ℚ))
    with hq
  have hnum : (q.num : ℚ) = q := by
    conv_rhs => rw [← Rat.num_div_den q]
    rw [hden]
    norm_num
  rw [hnum, hq, hdim i hi, hdim j hj]

/-- Witness for C7 on the one-dimensional algebra `A = Q = F = ℚ` with
`cois = [1]`: the computation succeeds and returns an immutable
matrix. -/
theorem cartan_invariants_matrix_spec_witness :
    ∃ m, cartan_invariants_matrix ℚ (fun _ => "") (⇑(RingHom.id ℚ)) (fun a => a) 1
        [(1 : ℚ)] = some m ∧ m.immutable = true := by
  have horth_eval : orthogonal_idempotents_central_mod_radical (fun _ => "")
      (⇑(RingHom.id ℚ)) (fun a : ℚ => a) 1 [(1 : ℚ)] = some [1] := by
    norm_num [orthogonal_idempotents_central_mod_radical, oicmrLoop,
      idempotent_lift, idempotentLiftLoop]
  have hsome : (cartan_invariants_matrix ℚ (fun _ => "") (⇑(RingHom.id ℚ))
      (fun a => a) 1 [(1 : ℚ)]).isSome = true := by
    unfold cartan_invariants_matrix
    rw [horth_eval]
    dsimp only
    split_ifs with hcond
    · rfl
    · exfalso
      apply hcond
      refine ⟨?_, ?_⟩
      · simp only [List.mem_singleton, forall_eq, finrank_principal_ideal_one,
          Module.finrank_self, Nat.sqrt_one, one_pow]
      · intro i hi j hj
        have hi0 : i = 0 := by
          have h1 : i < 1 := by simpa using hi
          omega
        have hj0 : j = 0 := by
          have h1 : j < 1 := by simpa using hj
          omega
        subst hi0
        subst hj0
        norm_num [finrank_principal_ideal_one, finrank_peirce_summand_one,
          Module.finrank_self]
  obtain ⟨m, hm⟩ := Option.isSome_iff_exists.mp hsome
  exact ⟨m, hm,
    (cartan_invariants_matrix_spec ℚ (fun _ => "") (⇑(RingHom.id ℚ)) (fun a => a) 1
      [(1 : ℚ)] [1] m horth_eval hm).1⟩

end Cartan

end FDAlgebra
